/-
  Verification development for the klondike repository.

  The repository contains a generic best-first search engine (src/astar.h and
  src/unnamed/part_000, which hold several revisions of the same header guarded
  by the same include guard) and a Klondike card/pile data model (src/klondike.cpp).

  This file shallowly embeds the data model and the operations the claims are
  about.  Machine integers of the source (uint8_t, unsigned, size_t) are modelled
  as Nat: every arithmetic operation performed by the embedded code (indexing,
  path-cost increments, f-cost sums on small searches) stays far below any
  overflow boundary, so no modular reduction is needed.  Console progress output
  of the engine (std::cout) is pure observability and is not modelled.
-/
import Mathlib

namespace Klondike

/-! ## Card (src/klondike.cpp lines 39-66)

A card is one byte: `rawCard = (value << 2) | suit`.  `Card()` default
constructs `rawCard = 0`, which is the UNKNOWN value with suit SPADES; the
static `Card::UNKNOWN` is that same value and `Card::EMPTY` is value 14
(EMPTY) with suit SPADES. -/

structure Card where
  rawCard : Nat
deriving DecidableEq, Repr

def Card.mkCard (value suit : Nat) : Card :=
  ⟨(value <<< 2) ||| suit⟩

def Card.getSuit (c : Card) : Nat :=
  c.rawCard &&& 3

def Card.getValue (c : Card) : Nat :=
  c.rawCard >>> 2

/-- Static `Card::UNKNOWN`: default-constructed card, `rawCard = 0`. -/
def Card.unknownCard : Card := ⟨0⟩

/-- Static `Card::EMPTY`: `Card(CardValue::EMPTY, Suit::SPADES)`, i.e. value 14, suit 0. -/
def Card.emptyCard : Card := Card.mkCard 14 0

def Card.isKnown (c : Card) : Bool :=
  !(c.getValue == 0) && !(c.getValue == 14)

/-! ## CardPile (src/klondike.cpp lines 143-225)

The C++ pile is a raw array `pile` of `internalSize` cards with a hidden
prefix of `numHidden` cards.  We model the storage as a `List Card`; the
logical size is the list length.  The const accessor `operator[]` (lines
189-197) masks the hidden prefix with a default-constructed (UNKNOWN) card and
out-of-range indices with `Card::EMPTY`, in that order. -/

structure CardPile where
  cards : List Card
  numHidden : Nat
deriving DecidableEq, Repr

def CardPile.size (p : CardPile) : Nat := p.cards.length

def CardPile.isEmptyPile (p : CardPile) : Bool := p.size == 0

/-- The const `CardPile::operator[]` (src/klondike.cpp lines 189-197). -/
def CardPile.getCard (p : CardPile) (index : Nat) : Card :=
  if index < p.numHidden then Card.unknownCard
  else if p.size ≤ index then Card.emptyCard
  else p.cards.getD index Card.unknownCard

/-- The accessor `CardPile::top` (src/klondike.cpp lines 218-224). -/
def CardPile.top (p : CardPile) : Card :=
  if p.isEmptyPile then Card.emptyCard
  else p.getCard (p.size - 1)

/-! ## The search-state capability contract (spec section 6; template parameters T, H)

The engine is templated over a state type `T` (with `successors()`, `isWin()`,
`getLastMove()`, equality and hashing) and a heuristic callable `H`.  We bundle
the four capabilities into one structure; `M` is the move type
(`decltype(T::getLastMove())`). -/

structure SSpace (T M : Type) where
  successors : T → List T
  isWin : T → Bool
  getLastMove : T → M
  heuristic : T → Nat

/-! ## SearchNode of the active astar.h revision (src/astar.h lines 25-77)

The node holds a pointer into the history set (value semantics here), the path
cost g, heuristic h, a memoized successor vector, and the inherited first move
(`MoveTypeRef`; the size-based storage specialization is a layout detail with
no behavioral content, so the move is held by value as `Option M`, `none`
standing for the null pointer of the default-constructed node).  The successor
cache is modelled separately (`CachedNode` below) where claim C8 needs it;
inside the engine the cache is semantically transparent because `successors()`
is a pure function of the state. -/

structure SearchNode (T M : Type) where
  state : T
  pathCost : Nat
  heuristic : Nat
  initialMove : Option M
deriving DecidableEq, Repr

/-- The derived `getFCost()` = g + h (src/astar.h line 70), never stored. -/
def SearchNode.fCost (n : SearchNode T M) : Nat := n.pathCost + n.heuristic

/-! `std::priority_queue` with `nodeComparator` (src/astar.h lines 79-82):
`comp(lhs, rhs) = lhs.fCost < rhs.fCost`, so `top()` is a node no other node
beats under `comp`, i.e. a node of maximal fCost.  Which node among equal
fCosts is on top is heap-implementation defined; we fix the earliest-pushed
maximal node, which is irrelevant to every theorem below (they either avoid
ties or only use maximality). -/

def popMax : List (SearchNode T M) → Option (SearchNode T M × List (SearchNode T M))
  | [] => none
  | n :: ns =>
    match popMax ns with
    | none => some (n, [])
    | some (m, rest) => if n.fCost < m.fCost then some (m, n :: rest) else some (n, ns)

/-! ## The active engine (astar.h first revision, lines 84-158): AStar<T, H>

Fields: the priority queue, the heuristic, the `history` unordered_set (the
VisitedSet), `nodesExpanded`, `depthLimit`, and the `initialMoves` backing
vector (only the pointed-to move matters, which each node carries by value, so
the vector itself needs no field).  The unordered_set is modelled as a
duplicate-free list mutated only through the deduplicating `insert`; its
iteration order carries no meaning. -/

structure EngineA (T M : Type) [DecidableEq T] where
  queue : List (SearchNode T M)
  history : List T
  nodesExpanded : Nat
  depthLimit : Nat

instance {T M : Type} [DecidableEq T] [DecidableEq M] : DecidableEq (EngineA T M) :=
  fun a b =>
    decidable_of_iff
      (a.queue = b.queue ∧ a.history = b.history ∧
        a.nodesExpanded = b.nodesExpanded ∧ a.depthLimit = b.depthLimit)
      (by cases a; cases b; simp [EngineA.mk.injEq])

variable {T M : Type} [DecidableEq T]

/-- The successor loop of `AStar::step` (src/astar.h lines 128-136): for each
successor not yet in history, insert it and push a node with g+1, the
successor's heuristic, and the inherited (or, on the first expansion, the
successor's own) last move. -/
def pushSuccessors (σ : SSpace T M) (isFirst : Bool) (next : SearchNode T M) :
    List T → List (SearchNode T M) × List T → List (SearchNode T M) × List T
  | [], qh => qh
  | s :: ss, (q, h) =>
    if s ∈ h then pushSuccessors σ isFirst next ss (q, h)
    else
      pushSuccessors σ isFirst next ss
        (q ++ [⟨s, next.pathCost + 1, σ.heuristic s,
               if isFirst then some (σ.getLastMove s) else next.initialMove⟩],
         insert s h)

inductive SearchErr where
  | emptyFrontier
  | invalidState
  | noLegalMoves
deriving DecidableEq, Repr

instance {ε α : Type} [DecidableEq ε] [DecidableEq α] : DecidableEq (Except ε α) := by
  intro a b
  cases a <;> cases b
  case error.error x y =>
    exact decidable_of_iff (x = y) (by simp)
  case ok.ok x y =>
    exact decidable_of_iff (x = y) (by simp)
  all_goals exact Decidable.isFalse (by simp)

/-- The `AStar::step` of the active revision (src/astar.h lines 115-139).  The
progress printout (lines 121-125) only reads `nodesExpanded` and is omitted;
the counter itself is kept because `isFirstExpansion` reads it. -/
def stepA (σ : SSpace T M) (e : EngineA T M) :
    Except SearchErr (SearchNode T M × EngineA T M) :=
  match popMax e.queue with
  | none => Except.error SearchErr.emptyFrontier
  | some (next, rest) =>
    let isFirst := e.nodesExpanded == 0
    if isFirst || e.depthLimit == 0 || decide (next.pathCost < e.depthLimit) then
      let qh := pushSuccessors σ isFirst next (σ.successors next.state) (rest, e.history)
      Except.ok (next, ⟨qh.1, qh.2, e.nodesExpanded + 1, e.depthLimit⟩)
    else
      Except.ok (next, ⟨rest, e.history, e.nodesExpanded + 1, e.depthLimit⟩)

/-- The constructor `AStar(initialState, heuristic, depthLimit)` (src/astar.h
lines 98-101): insert the root into history, push the root node with g = 0. -/
def initA (σ : SSpace T M) (root : T) (depthLimit : Nat) : EngineA T M :=
  ⟨[⟨root, 0, σ.heuristic root, none⟩], [root], 0, depthLimit⟩

/-- The best-node bookkeeping of `AStar::solve` (src/astar.h line 148):
`!first && (next.pathCost >= depthLimit || !bestSet || next.fCost < best.fCost)`. -/
def updateBestA (dl : Nat) (best : Option (SearchNode T M)) (first : Bool)
    (next : SearchNode T M) : Option (SearchNode T M) :=
  if first then best
  else
    match best with
    | none => some next
    | some b => if dl ≤ next.pathCost ∨ next.fCost < b.fCost then some next else some b

/-- The `AStar::solve` of the active revision (src/astar.h lines 140-157), with a
fuel parameter standing for the unbounded `for(;;)`; `none` means the fuel ran
out before the loop returned. -/
def solveLoopA (σ : SSpace T M) :
    Nat → EngineA T M → Option (SearchNode T M) → Bool →
    Option (Except SearchErr (SearchNode T M))
  | 0, _, _, _ => none
  | fuel + 1, e, best, first =>
    match stepA σ e with
    | Except.error er => some (Except.error er)
    | Except.ok (next, e') =>
      if σ.isWin next.state then some (Except.ok next)
      else
        let best' := updateBestA e.depthLimit best first next
        if e'.queue.isEmpty then
          some (Except.ok (if first then next else best'.getD next))
        else solveLoopA σ fuel e' best' false

def solveA (σ : SSpace T M) (fuel : Nat) (e : EngineA T M) :
    Option (Except SearchErr (SearchNode T M)) :=
  solveLoopA σ fuel e none true

/-- The sequence of nodes popped by the `solve` loop, in order, ending with the
pop on which the loop returns (win, or frontier exhausted). -/
def solveTraceA (σ : SSpace T M) : Nat → EngineA T M → List (SearchNode T M)
  | 0, _ => []
  | fuel + 1, e =>
    match stepA σ e with
    | Except.error _ => []
    | Except.ok (next, e') =>
      if σ.isWin next.state then [next]
      else if e'.queue.isEmpty then [next]
      else next :: solveTraceA σ fuel e'

/-- Runs `n` repeated `step` calls on one engine; returns the final engine and the
popped nodes in order (stopping early if the frontier empties). -/
def runA (σ : SSpace T M) : Nat → EngineA T M → EngineA T M × List (SearchNode T M)
  | 0, e => (e, [])
  | n + 1, e =>
    match stepA σ e with
    | Except.error _ => (e, [])
    | Except.ok (next, e') =>
      let r := runA σ n e'
      (r.1, next :: r.2)

/-! ## Properties of the active engine -/

lemma popMax_eq_none_iff (l : List (SearchNode T M)) : popMax l = none ↔ l = [] := by
  cases l with
  | nil => simp [popMax]
  | cons n ns =>
    simp only [popMax]
    constructor
    · intro h
      exfalso
      cases hns : popMax ns with
      | none => rw [hns] at h; simp at h
      | some p =>
        obtain ⟨m, rest⟩ := p
        rw [hns] at h
        by_cases hc : n.fCost < m.fCost <;> simp [hc] at h
    · intro h
      cases h

lemma popMax_fCost_le (l : List (SearchNode T M)) (m : SearchNode T M)
    (rest : List (SearchNode T M)) (h : popMax l = some (m, rest)) :
    ∀ x ∈ l, x.fCost ≤ m.fCost := by
  induction l generalizing m rest with
  | nil => simp [popMax] at h
  | cons n ns ih =>
    rw [popMax] at h
    cases hns : popMax ns with
    | none =>
      rw [hns] at h
      simp only [Option.some.injEq, Prod.mk.injEq] at h
      have hnil : ns = [] := (popMax_eq_none_iff ns).mp hns
      subst hnil
      intro x hx
      simp only [List.mem_singleton] at hx
      subst hx
      rw [h.1]
    | some p =>
      obtain ⟨m', rest'⟩ := p
      rw [hns] at h
      by_cases hc : n.fCost < m'.fCost
      · simp only [hc, if_true, Option.some.injEq, Prod.mk.injEq] at h
        intro x hx
        rcases List.mem_cons.mp hx with hx | hx
        · subst hx; rw [← h.1]; exact Nat.le_of_lt hc
        · rw [← h.1]; exact ih m' rest' hns x hx
      · simp only [hc, if_false, Option.some.injEq, Prod.mk.injEq] at h
        intro x hx
        rcases List.mem_cons.mp hx with hx | hx
        · subst hx; rw [h.1]
        · have h1 := ih m' rest' hns x hx
          have h2 : m'.fCost ≤ n.fCost := Nat.le_of_not_lt hc
          rw [← h.1]
          exact Nat.le_trans h1 h2

lemma popMax_rest_subset (l : List (SearchNode T M)) (m : SearchNode T M)
    (rest : List (SearchNode T M)) (h : popMax l = some (m, rest)) :
    ∀ x ∈ rest, x ∈ l := by
  induction l generalizing m rest with
  | nil => simp [popMax] at h
  | cons n ns ih =>
    rw [popMax] at h
    cases hns : popMax ns with
    | none =>
      rw [hns] at h
      simp only [Option.some.injEq, Prod.mk.injEq] at h
      rw [← h.2]
      intro x hx
      cases hx
    | some p =>
      obtain ⟨m', rest'⟩ := p
      rw [hns] at h
      by_cases hc : n.fCost < m'.fCost
      · simp only [hc, if_true, Option.some.injEq, Prod.mk.injEq] at h
        rw [← h.2]
        intro x hx
        rcases List.mem_cons.mp hx with hx | hx
        · exact List.mem_cons.mpr (Or.inl hx)
        · exact List.mem_cons_of_mem n (ih m' rest' hns x hx)
      · simp only [hc, if_false, Option.some.injEq, Prod.mk.injEq] at h
        rw [← h.2]
        intro x hx
        exact List.mem_cons_of_mem n hx

lemma popMax_length (l : List (SearchNode T M)) (m : SearchNode T M)
    (rest : List (SearchNode T M)) (h : popMax l = some (m, rest)) :
    rest.length + 1 = l.length := by
  induction l generalizing m rest with
  | nil => simp [popMax] at h
  | cons n ns ih =>
    rw [popMax] at h
    cases hns : popMax ns with
    | none =>
      rw [hns] at h
      simp only [Option.some.injEq, Prod.mk.injEq] at h
      have hnil : ns = [] := (popMax_eq_none_iff ns).mp hns
      subst hnil
      rw [← h.2]
      rfl
    | some p =>
      obtain ⟨m', rest'⟩ := p
      rw [hns] at h
      by_cases hc : n.fCost < m'.fCost
      · simp only [hc, if_true, Option.some.injEq, Prod.mk.injEq] at h
        rw [← h.2]
        have := ih m' rest' hns
        simp only [List.length_cons]
        omega
      · simp only [hc, if_false, Option.some.injEq, Prod.mk.injEq] at h
        rw [← h.2]
        rfl

lemma pushSuccessors_inv (σ : SSpace T M) (isFirst : Bool) (next : SearchNode T M) :
    ∀ (ss : List T) (q : List (SearchNode T M)) (h : List T),
      ((pushSuccessors σ isFirst next ss (q, h)).1.length + h.length
          = q.length + (pushSuccessors σ isFirst next ss (q, h)).2.length)
      ∧ h ⊆ (pushSuccessors σ isFirst next ss (q, h)).2
      ∧ (∀ nd ∈ (pushSuccessors σ isFirst next ss (q, h)).1,
          nd ∈ q ∨ (nd.pathCost = next.pathCost + 1
                    ∧ nd.state ∈ (pushSuccessors σ isFirst next ss (q, h)).2))
      ∧ (h.Nodup → (pushSuccessors σ isFirst next ss (q, h)).2.Nodup) := by
  intro ss
  induction ss with
  | nil =>
    intro q h
    refine ⟨rfl, List.Subset.refl h, ?_, fun hn => hn⟩
    intro nd hnd
    exact Or.inl hnd
  | cons s ss ih =>
    intro q h
    by_cases hs : s ∈ h
    · simp only [pushSuccessors, hs, if_true]
      exact ih q h
    · simp only [pushSuccessors, hs, if_false]
      obtain ⟨ih1, ih2, ih3, ih4⟩ :=
        ih (q ++ [⟨s, next.pathCost + 1, σ.heuristic s,
                  if isFirst then some (σ.getLastMove s) else next.initialMove⟩])
           (insert s h)
      rw [List.insert_neg hs] at ih1 ih2 ih3 ih4 ⊢
      refine ⟨?_, ?_, ?_, ?_⟩
      · simp only [List.length_append, List.length_cons, List.length_nil] at ih1
        omega
      · exact List.Subset.trans (List.subset_cons_self s h) ih2
      · intro nd hnd
        rcases ih3 nd hnd with hq | hnew
        · rcases List.mem_append.mp hq with hq | hq
          · exact Or.inl hq
          · simp only [List.mem_singleton] at hq
            subst hq
            exact Or.inr ⟨rfl, ih2 (List.mem_cons_self s h)⟩
        · exact Or.inr hnew
      · intro hn
        exact ih4 (List.nodup_cons.mpr ⟨hs, hn⟩)

lemma popMax_mem (l : List (SearchNode T M)) (m : SearchNode T M)
    (rest : List (SearchNode T M)) (h : popMax l = some (m, rest)) : m ∈ l := by
  induction l generalizing m rest with
  | nil => simp [popMax] at h
  | cons n ns ih =>
    rw [popMax] at h
    cases hns : popMax ns with
    | none =>
      rw [hns] at h
      simp only [Option.some.injEq, Prod.mk.injEq] at h
      rw [← h.1]
      exact List.mem_cons_self n ns
    | some p =>
      obtain ⟨m', rest'⟩ := p
      rw [hns] at h
      by_cases hc : n.fCost < m'.fCost
      · simp only [hc, if_true, Option.some.injEq, Prod.mk.injEq] at h
        rw [← h.1]
        exact List.mem_cons_of_mem n (ih m' rest' hns)
      · simp only [hc, if_false, Option.some.injEq, Prod.mk.injEq] at h
        rw [← h.1]
        exact List.mem_cons_self n ns

lemma stepA_inv (σ : SSpace T M) (e : EngineA T M) (next : SearchNode T M)
    (e' : EngineA T M) (h : stepA σ e = Except.ok (next, e')) :
    (∃ rest, popMax e.queue = some (next, rest))
    ∧ e'.depthLimit = e.depthLimit
    ∧ e'.nodesExpanded = e.nodesExpanded + 1 := by
  rw [stepA] at h
  cases hp : popMax e.queue with
  | none => rw [hp] at h; cases h
  | some p =>
    obtain ⟨m, rest⟩ := p
    rw [hp] at h
    simp only at h
    split at h <;>
    · simp only [Except.ok.injEq, Prod.mk.injEq] at h
      obtain ⟨hmn, heng⟩ := h
      subst hmn
      exact ⟨⟨rest, rfl⟩, by rw [← heng], by rw [← heng]⟩

lemma stepA_pops_max (σ : SSpace T M) (e : EngineA T M) (next : SearchNode T M)
    (e' : EngineA T M) (h : stepA σ e = Except.ok (next, e')) :
    ∀ x ∈ e.queue, x.fCost ≤ next.fCost := by
  obtain ⟨rest, hp⟩ := (stepA_inv σ e next e' h).1
  exact popMax_fCost_le e.queue next rest hp

lemma stepA_new_nodes (σ : SSpace T M) (e : EngineA T M) (next : SearchNode T M)
    (e' : EngineA T M) (h : stepA σ e = Except.ok (next, e')) :
    ∀ nd ∈ e'.queue,
      nd ∈ e.queue
      ∨ (nd.pathCost = next.pathCost + 1
         ∧ (e.nodesExpanded = 0 ∨ e.depthLimit = 0 ∨ next.pathCost < e.depthLimit)) := by
  rw [stepA] at h
  cases hp : popMax e.queue with
  | none => rw [hp] at h; cases h
  | some p =>
    obtain ⟨m, rest⟩ := p
    rw [hp] at h
    have hsub := popMax_rest_subset e.queue m rest hp
    simp only at h
    split at h
    · rename_i hcond
      simp only [Except.ok.injEq, Prod.mk.injEq] at h
      obtain ⟨hmn, heng⟩ := h
      subst hmn
      subst heng
      obtain ⟨_, _, p3, _⟩ :=
        pushSuccessors_inv σ (e.nodesExpanded == 0) m (σ.successors m.state)
          rest e.history
      intro nd hnd
      simp only at hnd
      rcases p3 nd hnd with hr | hnew
      · exact Or.inl (hsub nd hr)
      · refine Or.inr ⟨hnew.1, ?_⟩
        simp only [Bool.or_eq_true, beq_iff_eq, decide_eq_true_eq] at hcond
        exact or_assoc.mp hcond
    · simp only [Except.ok.injEq, Prod.mk.injEq] at h
      obtain ⟨hmn, heng⟩ := h
      subst hmn
      subst heng
      intro nd hnd
      simp only at hnd
      exact Or.inl (hsub nd hnd)

lemma stepA_counts (σ : SSpace T M) (e : EngineA T M) (next : SearchNode T M)
    (e' : EngineA T M) (hq : ∀ nd ∈ e.queue, nd.state ∈ e.history)
    (h : stepA σ e = Except.ok (next, e')) :
    (e'.queue.length + e.history.length + 1 = e.queue.length + e'.history.length)
    ∧ (∀ nd ∈ e'.queue, nd.state ∈ e'.history)
    ∧ (e.history.Nodup → e'.history.Nodup) := by
  rw [stepA] at h
  cases hp : popMax e.queue with
  | none => rw [hp] at h; cases h
  | some p =>
    obtain ⟨m, rest⟩ := p
    rw [hp] at h
    have hlen := popMax_length e.queue m rest hp
    have hsub := popMax_rest_subset e.queue m rest hp
    simp only at h
    split at h
    · simp only [Except.ok.injEq, Prod.mk.injEq] at h
      obtain ⟨hmn, heng⟩ := h
      subst hmn
      subst heng
      obtain ⟨p1, p2, p3, p4⟩ :=
        pushSuccessors_inv σ (e.nodesExpanded == 0) m (σ.successors m.state)
          rest e.history
      refine ⟨?_, ?_, ?_⟩
      · simp only
        omega
      · intro nd hnd
        simp only at hnd ⊢
        rcases p3 nd hnd with hr | hnew
        · exact p2 (hq nd (hsub nd hr))
        · exact hnew.2
      · exact p4
    · simp only [Except.ok.injEq, Prod.mk.injEq] at h
      obtain ⟨hmn, heng⟩ := h
      subst hmn
      subst heng
      refine ⟨?_, ?_, fun hn => hn⟩
      · simp only
        omega
      · intro nd hnd
        simp only at hnd
        exact hq nd (hsub nd hnd)

lemma runA_inv (σ : SSpace T M) :
    ∀ (n : Nat) (e : EngineA T M),
      (∀ nd ∈ e.queue, nd.state ∈ e.history) →
      e.history.Nodup →
      ((runA σ n e).1.queue.length + (runA σ n e).2.length + e.history.length
          = e.queue.length + (runA σ n e).1.history.length)
      ∧ (∀ nd ∈ (runA σ n e).1.queue, nd.state ∈ (runA σ n e).1.history)
      ∧ (runA σ n e).1.history.Nodup := by
  intro n
  induction n with
  | zero =>
    intro e he hn
    exact ⟨by simp [runA], by simpa [runA] using he, by simpa [runA] using hn⟩
  | succ n ih =>
    intro e he hn
    rw [runA]
    cases hs : stepA σ e with
    | error er => exact ⟨by simp, he, hn⟩
    | ok p =>
      obtain ⟨next, e'⟩ := p
      obtain ⟨hc1, hc2, hc3⟩ := stepA_counts σ e next e' he hs
      obtain ⟨ih1, ih2, ih3⟩ := ih e' hc2 (hc3 hn)
      simp only [List.length_cons]
      exact ⟨by omega, ih2, ih3⟩

lemma runA_depth_inv (σ : SSpace T M) (dl : Nat) (hdl : 1 ≤ dl) :
    ∀ (n : Nat) (e : EngineA T M),
      e.depthLimit = dl →
      (e.nodesExpanded = 0 → ∀ nd ∈ e.queue, nd.pathCost = 0) →
      (∀ nd ∈ e.queue, nd.pathCost ≤ dl) →
      ∀ nd ∈ (runA σ n e).2, nd.pathCost ≤ dl := by
  intro n
  induction n with
  | zero =>
    intro e _ _ _
    simp [runA]
  | succ n ih =>
    intro e hedl hfirst hbound
    rw [runA]
    cases hs : stepA σ e with
    | error er => simp
    | ok p =>
      obtain ⟨next, e'⟩ := p
      obtain ⟨⟨rest, hp⟩, hdl', hne'⟩ := stepA_inv σ e next e' hs
      have hnextq : next ∈ e.queue := popMax_mem e.queue next rest hp
      have hnext : next.pathCost ≤ dl := hbound next hnextq
      have hbound' : ∀ nd ∈ e'.queue, nd.pathCost ≤ dl := by
        intro nd hnd
        rcases stepA_new_nodes σ e next e' hs nd hnd with hold | ⟨hpc, hcase⟩
        · exact hbound nd hold
        · rcases hcase with h0 | h0 | h0
          · have := hfirst h0 next hnextq
            omega
          · rw [hedl] at h0
            omega
          · rw [hedl] at h0
            omega
      have ih' := ih e' (by rw [hdl', hedl])
        (by intro h0; rw [hne'] at h0; omega) hbound'
      intro nd hnd
      simp only [List.mem_cons] at hnd
      rcases hnd with hnd | hnd
      · subst hnd; exact hnext
      · exact ih' nd hnd

/-- With depth limit 0, the update condition `pathCost >= depthLimit` always
holds, so every non-first iteration overwrites `best` with the current pop. -/
lemma updateBestA_zero (best : Option (SearchNode T M)) (next : SearchNode T M) :
    updateBestA 0 best false next = some next := by
  cases best with
  | none => rfl
  | some b =>
    show (if 0 ≤ next.pathCost ∨ next.fCost < b.fCost then some next else some b) = some next
    rw [if_pos (Or.inl (Nat.zero_le _))]

/-- With the depth limit disabled, the best-node bookkeeping of `solve`
degenerates: `next.pathCost >= depthLimit` always holds, so `best` is
overwritten on every non-first expansion and the loop's answer is always the
most recent pop. -/
lemma solveLoopA_last (σ : SSpace T M) :
    ∀ (fuel : Nat) (e : EngineA T M) (best : Option (SearchNode T M)) (first : Bool)
      (n : SearchNode T M),
      e.depthLimit = 0 →
      solveLoopA σ fuel e best first = some (Except.ok n) →
      (solveTraceA σ fuel e).getLast? = some n
      ∧ ∀ m ∈ (solveTraceA σ fuel e).dropLast, σ.isWin m.state = false := by
  intro fuel
  induction fuel with
  | zero =>
    intro e best first n _ h
    cases h
  | succ fuel ih =>
    intro e best first n hdl h
    rw [solveLoopA] at h
    rw [solveTraceA]
    cases hs : stepA σ e with
    | error er =>
      rw [hs] at h
      simp at h
    | ok p =>
      obtain ⟨next, e'⟩ := p
      rw [hs] at h
      simp only at h
      cases hw : σ.isWin next.state with
      | true =>
        rw [hw] at h
        simp only [if_true] at h
        simp only [Option.some.injEq, Except.ok.injEq] at h
        subst h
        simp [hw]
      | false =>
        rw [hw] at h
        simp only [Bool.false_eq_true, if_false] at h
        cases hqe : e'.queue.isEmpty with
        | true =>
          rw [hqe] at h
          simp only [if_true, Option.some.injEq, Except.ok.injEq] at h
          have hnext : n = next := by
            rw [← h]
            cases first with
            | true => rfl
            | false =>
              simp only [Bool.false_eq_true, if_false, hdl, updateBestA_zero,
                Option.getD_some]
          subst hnext
          simp [hw, hqe]
        | false =>
          rw [hqe] at h
          simp only [Bool.false_eq_true, if_false] at h
          have hdl' : e'.depthLimit = 0 := by
            rw [(stepA_inv σ e next e' hs).2.1, hdl]
          obtain ⟨ih1, ih2⟩ := ih e' (updateBestA e.depthLimit best first next) false n hdl' h
          have htr : solveTraceA σ fuel e' ≠ [] := by
            intro hnil
            rw [hnil] at ih1
            cases ih1
          obtain ⟨a, t, hat⟩ : ∃ a t, solveTraceA σ fuel e' = a :: t := by
            cases hcase : solveTraceA σ fuel e' with
            | nil => exact absurd hcase htr
            | cons a t => exact ⟨a, t, rfl⟩
          simp only [hw, hqe, Bool.false_eq_true, if_false]
          rw [hat] at ih1 ih2 ⊢
          constructor
          · rw [List.getLast?_cons_cons]
            exact ih1
          · rw [List.dropLast_cons₂]
            intro m hm
            rcases List.mem_cons.mp hm with hm | hm
            · subst hm; exact hw
            · exact ih2 m hm

/-! ## The `getBestMove` engine revision (src/unnamed/part_000 lines 78-221,
also the third copy in src/astar.h lines 275-448)

This revision's `SearchNode` has no inherited move, its comparator is
`lhs.fCost > rhs.fCost` (so `top()` is a node of minimal fCost — a proper
min-heap), there is no depth limit, and `AStar` carries only the queue and the
history; its `nodesExpanded` counter feeds only the progress printout, which
the spec itself classes as observability that must not affect results, so it
is omitted here. -/

structure NodeB (T : Type) where
  state : T
  pathCost : Nat
  heuristic : Nat
deriving DecidableEq, Repr

def NodeB.fCost (n : NodeB T) : Nat := n.pathCost + n.heuristic

/-- The `top()` of the min-heap revision (comparator at src/unnamed/part_000 lines
131-134): a node of minimal fCost, earliest-pushed among ties. -/
def popMin : List (NodeB T) → Option (NodeB T × List (NodeB T))
  | [] => none
  | n :: ns =>
    match popMin ns with
    | none => some (n, [])
    | some (m, rest) => if m.fCost < n.fCost then some (m, n :: rest) else some (n, ns)

structure EngineB (T : Type) [DecidableEq T] where
  queue : List (NodeB T)
  history : List T

instance {T : Type} [DecidableEq T] : DecidableEq (EngineB T) :=
  fun a b =>
    decidable_of_iff (a.queue = b.queue ∧ a.history = b.history)
      (by cases a; cases b; simp [EngineB.mk.injEq])

/-- The successor loop of this revision's `step` (src/unnamed/part_000 lines
164-169): always deduplicated against history, no depth limit, no move data. -/
def pushSuccB (σ : SSpace T M) (next : NodeB T) :
    List T → List (NodeB T) × List T → List (NodeB T) × List T
  | [], qh => qh
  | s :: ss, (q, h) =>
    if s ∈ h then pushSuccB σ next ss (q, h)
    else pushSuccB σ next ss (q ++ [⟨s, next.pathCost + 1, σ.heuristic s⟩], insert s h)

/-- The `AStar::step` of the `getBestMove` revision (src/unnamed/part_000 lines
155-171). -/
def stepB (σ : SSpace T M) (e : EngineB T) : Except SearchErr (NodeB T × EngineB T) :=
  match popMin e.queue with
  | none => Except.error SearchErr.emptyFrontier
  | some (next, rest) =>
    let qh := pushSuccB σ next (σ.successors next.state) (rest, e.history)
    Except.ok (next, ⟨qh.1, qh.2⟩)

/-- The inner `for(;;)` of `getBestMove` (src/unnamed/part_000 lines 196-207):
run `step` until the popped node is terminal or the frontier empties; fuel
models the unbounded loop, `none` meaning it ran out. -/
def subSearch (σ : SSpace T M) : Nat → EngineB T → Option (Except SearchErr (NodeB T × EngineB T))
  | 0, _ => none
  | fuel + 1, e =>
    match stepB σ e with
    | Except.error er => some (Except.error er)
    | Except.ok (result, e') =>
      if (σ.successors result.state).isEmpty || e'.queue.isEmpty then
        some (Except.ok (result, e'))
      else subSearch σ fuel e'

/-- The best-branch bookkeeping of `getBestMove` (src/unnamed/part_000 lines
199-204): replace the recorded best only when the new result's fCost is
strictly lower (`bestResult->getFCost() > result.getFCost()`). -/
def updateBestB (σ : SSpace T M) (s : T) (result : NodeB T) :
    Option (M × NodeB T) → Option (M × NodeB T)
  | none => some (σ.getLastMove s, result)
  | some b => if result.fCost < b.2.fCost then some (σ.getLastMove s, result) else some b

/-- The per-candidate loop of `getBestMove` (src/unnamed/part_000 lines
193-211): seed the frontier with the candidate successor, run the sub-search
to completion, compare, then reset the queue and reseed the history with only
the root state before the next candidate. -/
def branchLoop (σ : SSpace T M) (fuel : Nat) (current : NodeB T) :
    List T → EngineB T → Option (M × NodeB T) →
    Option (Except SearchErr (M × NodeB T) × EngineB T)
  | [], e, best =>
    match best with
    | some b => some (Except.ok b, e)
    | none => some (Except.error SearchErr.invalidState, e)
  | s :: rest, e, best =>
    match subSearch σ fuel
        ⟨e.queue ++ [⟨s, current.pathCost + 1, σ.heuristic s⟩], insert s e.history⟩ with
    | none => none
    | some (Except.error er) =>
      some (Except.error er,
        ⟨e.queue ++ [⟨s, current.pathCost + 1, σ.heuristic s⟩], insert s e.history⟩)
    | some (Except.ok (result, _)) =>
      branchLoop σ fuel current rest
        (⟨[], [current.state]⟩ : EngineB T) (updateBestB σ s result best)

/-- The `AStar::getBestMove` procedure (src/unnamed/part_000 lines 180-216).  The result is
paired with the engine state left behind (on a throw, the state at the moment
of the throw: in particular the single node is already popped when the
no-legal-moves check runs). -/
def getBestMove (σ : SSpace T M) (fuel : Nat) (e : EngineB T) :
    Option (Except SearchErr (M × NodeB T) × EngineB T) :=
  if e.queue.isEmpty then some (Except.error SearchErr.emptyFrontier, e)
  else if e.queue.length != 1 then some (Except.error SearchErr.invalidState, e)
  else
    match popMin e.queue with
    | none => some (Except.error SearchErr.emptyFrontier, e)
    | some (current, rest) =>
      if (σ.successors current.state).isEmpty then
        some (Except.error SearchErr.noLegalMoves, ⟨rest, e.history⟩)
      else branchLoop σ fuel current (σ.successors current.state) ⟨rest, e.history⟩ none

/-- The root node pushed by this revision's constructor (src/unnamed/part_000
lines 147-154). -/
def rootNodeB (σ : SSpace T M) (root : T) : NodeB T := ⟨root, 0, σ.heuristic root⟩

def initB (σ : SSpace T M) (root : T) : EngineB T := ⟨[rootNodeB σ root], [root]⟩

/-- The engine state at the start of a branch's sub-search: frontier holding
only the seeded candidate node, history holding the root and the candidate. -/
def seedEngineB (σ : SSpace T M) (current : NodeB T) (s : T) : EngineB T :=
  ⟨[⟨s, current.pathCost + 1, σ.heuristic s⟩], insert s [current.state]⟩

/-- One candidate branch resolved in isolation, from the reset engine state. -/
def branchOutcome (σ : SSpace T M) (fuel : Nat) (current : NodeB T) (s : T) :
    Option (Except SearchErr (NodeB T × EngineB T)) :=
  subSearch σ fuel (seedEngineB σ current s)

/-- Folding the isolated branch outcomes with the first-wins strict-min
comparison: the declarative counterpart of `branchLoop`. -/
def foldOutcomes (σ : SSpace T M) (fuel : Nat) (current : NodeB T) :
    List T → Option (M × NodeB T) → Option (Except SearchErr (M × NodeB T))
  | [], best =>
    match best with
    | some b => some (Except.ok b)
    | none => some (Except.error SearchErr.invalidState)
  | s :: rest, best =>
    match branchOutcome σ fuel current s with
    | none => none
    | some (Except.error er) => some (Except.error er)
    | some (Except.ok (result, _)) =>
      foldOutcomes σ fuel current rest (updateBestB σ s result best)

/-- First-wins strict-min selection over (move, result) pairs. -/
def selectBest : (M × NodeB T) → List (M × NodeB T) → M × NodeB T
  | b, [] => b
  | b, y :: ys => selectBest (if y.2.fCost < b.2.fCost then y else b) ys

/-! ## Branch isolation and the declarative reading of `getBestMove` -/

/-- Started from the reset state (empty frontier, history = root only), the
branch loop computes exactly the fold of the isolated branch outcomes: each
branch's sub-search runs from the same reset state, so no visited-state
knowledge flows between branches. -/
lemma branchLoop_isolated (σ : SSpace T M) (fuel : Nat) (current : NodeB T) :
    ∀ (ss : List T) (best : Option (M × NodeB T)),
      (branchLoop σ fuel current ss ⟨[], [current.state]⟩ best).map Prod.fst
        = foldOutcomes σ fuel current ss best := by
  intro ss
  induction ss with
  | nil =>
    intro best
    cases best <;> rfl
  | cons s rest ih =>
    intro best
    simp only [branchLoop, foldOutcomes, branchOutcome, seedEngineB, List.nil_append]
    cases hoc : subSearch σ fuel
        ⟨[⟨s, current.pathCost + 1, σ.heuristic s⟩],
          insert s [current.state]⟩ with
    | none => rfl
    | some r =>
      cases r with
      | error er => rfl
      | ok p =>
        obtain ⟨result, e2⟩ := p
        exact ih (updateBestB σ s result best)

lemma updateBestB_some (σ : SSpace T M) (s : T) (r : NodeB T) (b : M × NodeB T) :
    updateBestB σ s r (some b)
      = some (if r.fCost < b.2.fCost then (σ.getLastMove s, r) else b) := by
  by_cases h : r.fCost < b.2.fCost <;> simp [updateBestB, h]

/-- When every branch's sub-search completes normally, the branch loop reduces
to the first-wins strict-min selection over the per-branch (move, result)
pairs, and leaves the engine in the reset state. -/
lemma branchLoop_ok (σ : SSpace T M) (fuel : Nat) (current : NodeB T) :
    ∀ (ss : List T) (rs : List (NodeB T × EngineB T)) (b : M × NodeB T),
      ss.map (branchOutcome σ fuel current) = rs.map (fun r => some (Except.ok r)) →
      branchLoop σ fuel current ss ⟨[], [current.state]⟩ (some b)
        = some (Except.ok (selectBest b
              (List.zip (ss.map σ.getLastMove) (rs.map Prod.fst))),
            (⟨[], [current.state]⟩ : EngineB T)) := by
  intro ss
  induction ss with
  | nil =>
    intro rs b hmap
    have hrs : rs = [] := by
      cases rs with
      | nil => rfl
      | cons r rs' => simp at hmap
    subst hrs
    rfl
  | cons s rest ih =>
    intro rs b hmap
    cases rs with
    | nil => simp at hmap
    | cons r rs' =>
      simp only [List.map_cons, List.cons.injEq] at hmap
      obtain ⟨hhead, htail⟩ := hmap
      obtain ⟨rn, re⟩ := r
      have h1 : branchLoop σ fuel current (s :: rest) ⟨[], [current.state]⟩ (some b)
          = branchLoop σ fuel current rest ⟨[], [current.state]⟩
              (updateBestB σ s rn (some b)) := by
        simp only [branchLoop, List.nil_append]
        rw [show subSearch σ fuel
              ⟨[⟨s, current.pathCost + 1, σ.heuristic s⟩],
                insert s [current.state]⟩
            = branchOutcome σ fuel current s from rfl]
        rw [hhead]
      rw [h1, updateBestB_some σ s rn b,
        ih rs' (if rn.fCost < b.2.fCost then (σ.getLastMove s, rn) else b) htail]
      rfl

lemma branchLoop_none (σ : SSpace T M) (fuel : Nat) (current : NodeB T)
    (s : T) (rest : List T) (rn : NodeB T) (re : EngineB T)
    (rs : List (NodeB T × EngineB T))
    (hhead : branchOutcome σ fuel current s = some (Except.ok (rn, re)))
    (htail : rest.map (branchOutcome σ fuel current)
      = rs.map (fun r => some (Except.ok r))) :
    branchLoop σ fuel current (s :: rest) ⟨[], [current.state]⟩ none
      = some (Except.ok (selectBest (σ.getLastMove s, rn)
          (List.zip (rest.map σ.getLastMove) (rs.map Prod.fst))),
          (⟨[], [current.state]⟩ : EngineB T)) := by
  have h1 : branchLoop σ fuel current (s :: rest) ⟨[], [current.state]⟩ none
      = branchLoop σ fuel current rest ⟨[], [current.state]⟩
          (some (σ.getLastMove s, rn)) := by
    simp only [branchLoop, List.nil_append]
    rw [show subSearch σ fuel
          ⟨[⟨s, current.pathCost + 1, σ.heuristic s⟩],
            insert s [current.state]⟩
        = branchOutcome σ fuel current s from rfl]
    rw [hhead]
    rfl
  rw [h1, branchLoop_ok σ fuel current rest rs (σ.getLastMove s, rn) htail]

/-- On a freshly constructed engine whose root has legal moves, `getBestMove`
passes its precondition checks, pops the root, and enters the branch loop from
the state (empty frontier, history = root only). -/
lemma getBestMove_init (σ : SSpace T M) (fuel : Nat) (root : T)
    (hne : σ.successors root ≠ []) :
    getBestMove σ fuel (initB σ root)
      = branchLoop σ fuel (rootNodeB σ root) (σ.successors root)
          ⟨[], [root]⟩ none := by
  obtain ⟨a, as, hsa⟩ : ∃ a as, σ.successors root = a :: as := by
    cases hcase : σ.successors root with
    | nil => exact absurd hcase hne
    | cons a as => exact ⟨a, as, rfl⟩
  rw [getBestMove]
  simp [initB, rootNodeB, popMin, hsa]

/-! ## `selectBest` picks the earliest pair of minimal fCost -/

/-- Whether `p` has minimal result fCost within `l`. -/
def isMinIn (l : List (M × NodeB T)) (p : M × NodeB T) : Bool :=
  l.all fun q => decide (p.2.fCost ≤ q.2.fCost)

lemma isMinIn_iff (l : List (M × NodeB T)) (x : M × NodeB T) :
    isMinIn l x = true ↔ ∀ q ∈ l, x.2.fCost ≤ q.2.fCost := by
  simp [isMinIn]

lemma isMinIn_false_iff (l : List (M × NodeB T)) (x : M × NodeB T) :
    isMinIn l x = false ↔ ∃ q ∈ l, q.2.fCost < x.2.fCost := by
  rw [← Bool.not_eq_true, isMinIn_iff]
  push_neg
  rfl

lemma eqFalse_imp_ne_true {b : Bool} (h : b = false) : ¬ b = true := by
  rw [h]
  exact Bool.false_ne_true

lemma selectBest_of_min (b : M × NodeB T) (l : List (M × NodeB T))
    (h : ∀ y ∈ l, b.2.fCost ≤ y.2.fCost) : selectBest b l = b := by
  induction l with
  | nil => rfl
  | cons y ys ih =>
    simp only [selectBest]
    rw [if_neg (Nat.not_lt.mpr (h y (List.mem_cons_self y ys)))]
    exact ih fun z hz => h z (List.mem_cons_of_mem y hz)

lemma find_congr {α : Type} (p q : α → Bool) :
    ∀ (l : List α), (∀ x ∈ l, p x = q x) → l.find? p = l.find? q := by
  intro l
  induction l with
  | nil => intro _; rfl
  | cons a l ih =>
    intro h
    cases hqa : q a with
    | true =>
      rw [List.find?_cons_of_pos _ (by rw [h a (List.mem_cons_self a l)]; exact hqa),
        List.find?_cons_of_pos _ hqa]
    | false =>
      rw [List.find?_cons_of_neg _ (eqFalse_imp_ne_true
          (by rw [h a (List.mem_cons_self a l)]; exact hqa)),
        List.find?_cons_of_neg _ (eqFalse_imp_ne_true hqa)]
      exact ih fun x hx => h x (List.mem_cons_of_mem a hx)

/-- The imperative first-wins strict-min fold returns exactly the first
element of minimal fCost: a later branch replaces the recorded best only when
strictly lower, so ties keep the earlier pair. -/
lemma selectBest_eq_find (l : List (M × NodeB T)) :
    ∀ (b : M × NodeB T),
      (b :: l).find? (isMinIn (b :: l)) = some (selectBest b l) := by
  induction l with
  | nil =>
    intro b
    rw [List.find?_cons_of_pos _ ((isMinIn_iff [b] b).mpr ?_)]
    · rfl
    · intro q hq
      rcases List.mem_singleton.mp hq with rfl
      exact Nat.le_refl _
  | cons y ys ih =>
    intro b
    by_cases hy : y.2.fCost < b.2.fCost
    · -- the head is beaten by y: it is skipped, and the minima of the tail
      -- are the minima of the whole list
      have hpb : isMinIn (b :: y :: ys) b = false :=
        (isMinIn_false_iff _ _).mpr ⟨y, List.mem_cons_of_mem b (List.mem_cons_self y ys), hy⟩
      rw [List.find?_cons_of_neg _ (eqFalse_imp_ne_true hpb)]
      have hpoint : ∀ x ∈ y :: ys, isMinIn (b :: y :: ys) x = isMinIn (y :: ys) x := by
        intro x hx
        cases hmin : isMinIn (y :: ys) x with
        | true =>
          have hxy : x.2.fCost ≤ y.2.fCost :=
            (isMinIn_iff _ _).mp hmin y (List.mem_cons_self y ys)
          refine (isMinIn_iff _ _).mpr ?_
          intro q hq
          rcases List.mem_cons.mp hq with rfl | hq
          · exact Nat.le_trans hxy (Nat.le_of_lt hy)
          · exact (isMinIn_iff _ _).mp hmin q hq
        | false =>
          obtain ⟨q, hq, hlt⟩ := (isMinIn_false_iff _ _).mp hmin
          exact (isMinIn_false_iff _ _).mpr ⟨q, List.mem_cons_of_mem b hq, hlt⟩
      rw [find_congr _ _ _ hpoint, ih y]
      simp only [selectBest, if_pos hy]
    · -- the head survives y's comparison
      have hby : b.2.fCost ≤ y.2.fCost := Nat.not_lt.mp hy
      cases hpb : isMinIn (b :: y :: ys) b with
      | true =>
        rw [List.find?_cons_of_pos _ hpb]
        have hmin := (isMinIn_iff _ _).mp hpb
        have hsel : selectBest b ys = b := by
          refine selectBest_of_min b ys ?_
          intro z hz
          exact hmin z (List.mem_cons_of_mem b (List.mem_cons_of_mem y hz))
        simp only [selectBest, if_neg hy, hsel]
      | false =>
        obtain ⟨z, hz, hzb⟩ := (isMinIn_false_iff _ _).mp hpb
        have hzys : z ∈ ys := by
          rcases List.mem_cons.mp hz with rfl | hz'
          · exact absurd hzb (Nat.lt_irrefl _)
          · rcases List.mem_cons.mp hz' with rfl | hz''
            · exact absurd (Nat.lt_of_lt_of_le hzb hby) (Nat.lt_irrefl _)
            · exact hz''
        rw [List.find?_cons_of_neg _ (eqFalse_imp_ne_true hpb)]
        have hpy : isMinIn (b :: y :: ys) y = false := by
          refine (isMinIn_false_iff _ _).mpr ?_
          exact ⟨z, List.mem_cons_of_mem b (List.mem_cons_of_mem y hzys),
            Nat.lt_of_lt_of_le hzb hby⟩
        rw [List.find?_cons_of_neg _ (eqFalse_imp_ne_true hpy)]
        have hpb' : isMinIn (b :: ys) b = false :=
          (isMinIn_false_iff _ _).mpr ⟨z, List.mem_cons_of_mem b hzys, hzb⟩
        have hih := ih b
        rw [List.find?_cons_of_neg _ (eqFalse_imp_ne_true hpb')] at hih
        have hpoint : ∀ x ∈ ys, isMinIn (b :: y :: ys) x = isMinIn (b :: ys) x := by
          intro x hx
          cases hmin : isMinIn (b :: ys) x with
          | true =>
            have hxb : x.2.fCost ≤ b.2.fCost :=
              (isMinIn_iff _ _).mp hmin b (List.mem_cons_self b ys)
            refine (isMinIn_iff _ _).mpr ?_
            intro q hq
            rcases List.mem_cons.mp hq with rfl | hq'
            · exact hxb
            · rcases List.mem_cons.mp hq' with rfl | hq''
              · exact Nat.le_trans hxb hby
              · exact (isMinIn_iff _ _).mp hmin q (List.mem_cons_of_mem b hq'')
          | false =>
            obtain ⟨q, hq, hlt⟩ := (isMinIn_false_iff _ _).mp hmin
            refine (isMinIn_false_iff _ _).mpr ?_
            rcases List.mem_cons.mp hq with rfl | hq'
            · exact ⟨q, List.mem_cons_self q _, hlt⟩
            · exact ⟨q, List.mem_cons_of_mem b (List.mem_cons_of_mem y hq'), hlt⟩
        rw [find_congr _ _ _ hpoint, hih]
        simp only [selectBest, if_neg hy]

/-! ## The successor cache of `SearchNode::getSuccessors` (src/astar.h lines 71-76)

`getSuccessors` recomputes `state.successors()` whenever `cachedSuccessors` is
empty and returns the cache.  The state is mutable (a `mutable` member mutated
through a const accessor), so the accessor is modelled as returning the read
sequence, the updated node, and how many times the underlying successor
computation ran during the call. -/

structure CachedNode (T : Type) where
  state : T
  cachedSuccessors : List T
deriving DecidableEq, Repr

def getSuccessorsMemo (σ : SSpace T M) (n : CachedNode T) :
    List T × CachedNode T × Nat :=
  if n.cachedSuccessors.isEmpty then
    (σ.successors n.state, ⟨n.state, σ.successors n.state⟩, 1)
  else (n.cachedSuccessors, n, 0)

/-! ## Concrete state spaces used by counterexamples and witnesses -/

/-- A one-state space whose sole state has no successors. -/
def sigNone : SSpace (Fin 1) (Fin 1) :=
  ⟨fun _ => [], fun _ => false, id, fun _ => 0⟩

/-- The spec's best-move scenario, section 8: the root 0 has candidate moves
to 1 (which reaches the win state 3 in one more move, heuristic 0) and to 2 (a
dead end with heuristic 5). -/
def succWin (s : Fin 4) : List (Fin 4) :=
  if s = 0 then [1, 2] else if s = 1 then [3] else []

def heurWin (s : Fin 4) : Nat :=
  if s = 2 then 5 else 0

def sigWin : SSpace (Fin 4) (Fin 4) :=
  ⟨succWin, fun s => decide (s = 3), id, heurWin⟩

/-- A four-state space with no win states: 0 → 1, 2; 1 → 3; 2 and 3 terminal.
Moves are identified with the states they lead to. -/
def succEx (s : Fin 4) : List (Fin 4) :=
  if s = 0 then [1, 2] else if s = 1 then [3] else []

def heurEx (s : Fin 4) : Nat :=
  if s = 2 then 3 else if s = 3 then 9 else 0

def sigEx : SSpace (Fin 4) (Fin 4) :=
  ⟨succEx, fun _ => false, id, heurEx⟩

/-! ## Claims -/

/-- C9: for every CardPile and every index i, reading the pile at index i
yields the "unknown" sentinel card when i is less than the hidden count, the
"empty" sentinel card when i is at or past the pile's logical size, and
otherwise the stored card at position i.  The cases are the accessor's own
branch order: the hidden-prefix mask is checked first, exactly as in
`CardPile::operator[]` (src/klondike.cpp lines 189-197). -/
theorem c9_pile_accessor_masks (p : CardPile) (index : Nat) :
    (index < p.numHidden → p.getCard index = Card.unknownCard)
    ∧ (p.numHidden ≤ index → p.size ≤ index → p.getCard index = Card.emptyCard)
    ∧ (p.numHidden ≤ index → index < p.size →
        p.getCard index = p.cards.getD index Card.unknownCard) := by
  refine ⟨?_, ?_, ?_⟩
  · intro h
    simp [CardPile.getCard, h]
  · intro h1 h2
    simp [CardPile.getCard, Nat.not_lt.mpr h1, h2]
  · intro h1 h2
    simp [CardPile.getCard, Nat.not_lt.mpr h1, Nat.not_le.mpr h2]

/-- C9 witness: a three-card pile with one hidden card, read at a hidden
index, an out-of-range index, and a visible in-range index. -/
theorem c9_witness :
    (CardPile.mk [Card.mkCard 13 0, Card.mkCard 12 1, Card.mkCard 11 2] 1).getCard 0
        = Card.unknownCard
    ∧ (CardPile.mk [Card.mkCard 13 0, Card.mkCard 12 1, Card.mkCard 11 2] 1).getCard 5
        = Card.emptyCard
    ∧ (CardPile.mk [Card.mkCard 13 0, Card.mkCard 12 1, Card.mkCard 11 2] 1).getCard 2
        = [Card.mkCard 13 0, Card.mkCard 12 1, Card.mkCard 11 2].getD 2 Card.unknownCard :=
  ⟨(c9_pile_accessor_masks _ 0).1 (by decide),
   (c9_pile_accessor_masks _ 5).2.1 (by decide) (by decide),
   (c9_pile_accessor_masks _ 2).2.2 (by decide) (by decide)⟩

/-- C10: `top()` on an empty pile returns the "empty" sentinel without reading
the storage; on a non-empty pile it returns index size-1 read through the
masking accessor, so a fully hidden single-card pile yields the "unknown"
sentinel (src/klondike.cpp lines 218-224). -/
theorem c10_top_masks (p : CardPile) :
    (p.cards = [] → p.top = Card.emptyCard)
    ∧ (p.cards ≠ [] → p.top = p.getCard (p.size - 1))
    ∧ (∀ c : Card, (CardPile.mk [c] 1).top = Card.unknownCard) := by
  refine ⟨?_, ?_, ?_⟩
  · intro h
    simp [CardPile.top, CardPile.isEmptyPile, CardPile.size, h]
  · intro h
    obtain ⟨a, l, hc⟩ : ∃ a l, p.cards = a :: l := by
      cases hcase : p.cards with
      | nil => exact absurd hcase h
      | cons a l => exact ⟨a, l, rfl⟩
    have hemp : p.isEmptyPile = false := by
      simp [CardPile.isEmptyPile, CardPile.size, hc]
    simp [CardPile.top, hemp]
  · intro c
    rfl

/-- C10 witness: the empty pile, a two-card pile, and a fully hidden
single-card pile. -/
theorem c10_witness :
    (CardPile.mk [] 0).top = Card.emptyCard
    ∧ (CardPile.mk [Card.mkCard 7 1, Card.mkCard 3 2] 0).top
        = (CardPile.mk [Card.mkCard 7 1, Card.mkCard 3 2] 0).getCard
            ((CardPile.mk [Card.mkCard 7 1, Card.mkCard 3 2] 0).size - 1)
    ∧ (CardPile.mk [Card.mkCard 7 1] 1).top = Card.unknownCard :=
  ⟨(c10_top_masks _).1 rfl,
   (c10_top_masks _).2.1 (by decide),
   (c10_top_masks (CardPile.mk [] 0)).2.2 (Card.mkCard 7 1)⟩

/-- C8 counterexample: on a node whose state has no successors, the cache
stays empty, so the underlying successor computation runs again on every call:
two accessor calls on the same node run it twice, not at most once
(src/astar.h lines 71-76, the `cachedSuccessors.empty()` test cannot tell an
unfilled cache from a cached empty result). -/
theorem c8_counterexample :
    (getSuccessorsMemo sigNone ⟨0, []⟩).2.2
        + (getSuccessorsMemo sigNone (getSuccessorsMemo sigNone ⟨0, []⟩).2.1).2.2 = 2
    ∧ ¬ ((getSuccessorsMemo sigNone ⟨0, []⟩).2.2
        + (getSuccessorsMemo sigNone (getSuccessorsMemo sigNone ⟨0, []⟩).2.1).2.2 ≤ 1) := by
  decide

/-- C8 amended: calling the successor accessor twice returns the identical
sequence, and, provided the state has at least one successor, the underlying
computation runs at most once over the two calls; for a successor-less state
the computation reruns on every call (returning the same empty sequence). -/
theorem c8_amended_memoization (σ : SSpace T M) (n : CachedNode T) :
    (getSuccessorsMemo σ n).1 = (getSuccessorsMemo σ (getSuccessorsMemo σ n).2.1).1
    ∧ (σ.successors n.state ≠ [] →
        (getSuccessorsMemo σ n).2.2
          + (getSuccessorsMemo σ (getSuccessorsMemo σ n).2.1).2.2 ≤ 1) := by
  constructor
  · cases hc : n.cachedSuccessors.isEmpty with
    | true =>
      cases hs : (σ.successors n.state).isEmpty with
      | true => simp [getSuccessorsMemo, hc, hs]
      | false => simp [getSuccessorsMemo, hc, hs]
    | false => simp [getSuccessorsMemo, hc]
  · intro hne
    have hs : (σ.successors n.state).isEmpty = false := by
      cases h : σ.successors n.state with
      | nil => exact absurd h hne
      | cons a l => rfl
    cases hc : n.cachedSuccessors.isEmpty with
    | true => simp [getSuccessorsMemo, hc, hs]
    | false => simp [getSuccessorsMemo, hc]

/-- C8 witness: a node for the root of the best-move scenario, which has two
successors; the computation runs exactly once over two accessor calls. -/
theorem c8_witness :
    (getSuccessorsMemo sigWin ⟨0, []⟩).1
        = (getSuccessorsMemo sigWin (getSuccessorsMemo sigWin ⟨0, []⟩).2.1).1
    ∧ (getSuccessorsMemo sigWin ⟨0, []⟩).2.2
        + (getSuccessorsMemo sigWin (getSuccessorsMemo sigWin ⟨0, []⟩).2.1).2.2 ≤ 1 :=
  ⟨(c8_amended_memoization sigWin ⟨0, []⟩).1,
   (c8_amended_memoization sigWin ⟨0, []⟩).2 (by decide)⟩

/-- C3: over any run of the active engine from construction, the number of
SearchNodes ever pushed into the Frontier (the final queue plus one per pop,
the root's initial push included) equals the VisitedSet's cardinality, and the
VisitedSet holds no duplicates: every push coincided with the insertion of a
state not seen before, so no state comparing equal to a previously inserted
one is ever pushed a second time.  Every queued node's state is a member of
the VisitedSet — the value-semantics reading of "references the canonical
stored copy" (src/astar.h lines 127-137). -/
theorem c3_no_reexpansion (σ : SSpace T M) (n : Nat) (root : T) (dl : Nat) :
    ((runA σ n (initA σ root dl)).1.queue.length + (runA σ n (initA σ root dl)).2.length
        = (runA σ n (initA σ root dl)).1.history.length)
    ∧ (∀ nd ∈ (runA σ n (initA σ root dl)).1.queue,
        nd.state ∈ (runA σ n (initA σ root dl)).1.history)
    ∧ (runA σ n (initA σ root dl)).1.history.Nodup := by
  obtain ⟨h1, h2, h3⟩ := runA_inv σ n (initA σ root dl)
    (by
      intro nd hnd
      simp only [initA, List.mem_singleton] at hnd
      subst hnd
      simp [initA])
    (by simp [initA])
  refine ⟨?_, h2, h3⟩
  have e1 : (initA σ root dl).queue.length = 1 := rfl
  have e2 : (initA σ root dl).history.length = 1 := rfl
  omega

/-- C4 counterexample: with the depth limit disabled, four consecutive `step`
calls on one engine pop fCosts 0, 4, 1, 11 — the third pop is strictly below
the second, so popped fCosts are not monotonically non-decreasing.  The
comparator `lhs.fCost < rhs.fCost` (src/astar.h lines 79-82) hands
`std::priority_queue` a max-heap order, so `step` pops the highest-fCost node
first. -/
theorem c4_counterexample :
    (solveTraceA sigEx 10 (initA sigEx 0 0)).map SearchNode.fCost = [0, 4, 1, 11]
    ∧ ¬ (∀ p ∈ List.zip ((solveTraceA sigEx 10 (initA sigEx 0 0)).map SearchNode.fCost)
            ((solveTraceA sigEx 10 (initA sigEx 0 0)).map SearchNode.fCost).tail,
          p.1 ≤ p.2) := by
  decide

/-- C4 amended: each popped node's fCost is greater than or equal to the fCost
of every node in the Frontier at the moment of the pop (the comparator makes
the frontier pop its maximum); consecutive pops need not be monotone in either
direction. -/
theorem c4_amended_pop_is_frontier_max (σ : SSpace T M) (e : EngineA T M)
    (next : SearchNode T M) (e' : EngineA T M)
    (h : stepA σ e = Except.ok (next, e')) :
    ∀ x ∈ e.queue, x.fCost ≤ next.fCost :=
  stepA_pops_max σ e next e' h

/-- C4 witness: a frontier with fCosts 1 and 4 pops the node of fCost 4, which
bounds the fCost of the other queued node. -/
theorem c4_witness :
    SearchNode.fCost (⟨0, 0, 1, none⟩ : SearchNode (Fin 4) (Fin 4))
      ≤ SearchNode.fCost (⟨1, 1, 3, none⟩ : SearchNode (Fin 4) (Fin 4)) :=
  c4_amended_pop_is_frontier_max sigEx
    (EngineA.mk [⟨0, 0, 1, none⟩, ⟨1, 1, 3, none⟩] [0, 1] 5 0)
    ⟨1, 1, 3, none⟩
    (EngineA.mk [⟨0, 0, 1, none⟩, ⟨3, 2, 9, none⟩] [3, 0, 1] 6 0)
    (by decide) ⟨0, 0, 1, none⟩ (by decide)

/-- C7: with a nonzero depth limit, a `step` call after the first expansion
that pops a node whose pathCost is at or beyond the limit returns that node
while pushing none of its successors — the engine state changes only by the
pop and the expansion counter (src/astar.h line 127) — and consequently no run
from construction ever pops a node with pathCost beyond the limit. -/
theorem c7_depth_limit_blocks_expansion (σ : SSpace T M) :
    (∀ (e : EngineA T M) (next : SearchNode T M) (rest : List (SearchNode T M)),
      e.depthLimit ≠ 0 → e.nodesExpanded ≠ 0 →
      popMax e.queue = some (next, rest) → e.depthLimit ≤ next.pathCost →
      stepA σ e = Except.ok (next, ⟨rest, e.history, e.nodesExpanded + 1, e.depthLimit⟩))
    ∧ (∀ (n : Nat) (root : T) (dl : Nat), 1 ≤ dl →
        ∀ nd ∈ (runA σ n (initA σ root dl)).2, nd.pathCost ≤ dl) := by
  constructor
  · intro e next rest hdl hne hp hpc
    rw [stepA, hp]
    have h1 : (e.nodesExpanded == 0) = false := beq_eq_false_iff_ne.mpr hne
    have h2 : (e.depthLimit == 0) = false := beq_eq_false_iff_ne.mpr hdl
    have h3 : decide (next.pathCost < e.depthLimit) = false :=
      decide_eq_false (Nat.not_lt.mpr hpc)
    simp only [h1, h2, h3]
    rfl
  · intro n root dl hdl
    refine runA_depth_inv σ dl hdl n (initA σ root dl) rfl ?_ ?_
    · intro _ nd hnd
      simp only [initA, List.mem_singleton] at hnd
      subst hnd
      rfl
    · intro nd hnd
      simp only [initA, List.mem_singleton] at hnd
      subst hnd
      exact Nat.zero_le dl

/-- C7 witness: a depth-2 engine past its first expansion pops a node at
pathCost 2 without expanding it, and a depth-1 run on the example space never
pops past depth 1. -/
theorem c7_witness :
    stepA sigEx (EngineA.mk [⟨1, 2, 0, none⟩] [0, 1] 5 2)
        = Except.ok ((⟨1, 2, 0, none⟩ : SearchNode (Fin 4) (Fin 4)),
            EngineA.mk [] [0, 1] 6 2)
    ∧ ∀ nd ∈ (runA sigEx 5 (initA sigEx 0 1)).2, nd.pathCost ≤ 1 :=
  ⟨(c7_depth_limit_blocks_expansion sigEx).1
      (EngineA.mk [⟨1, 2, 0, none⟩] [0, 1] 5 2) ⟨1, 2, 0, none⟩ []
      (by decide) (by decide) (by decide) (by decide),
   (c7_depth_limit_blocks_expansion sigEx).2 5 0 1 (by decide)⟩

/-- C1 counterexample: a depth-limit-0 engine whose frontier empties without
any popped state winning, yet `solve` returns the node of fCost 11 while a
non-first expansion of fCost 1 was popped: the returned node is not the one
with the lowest fCost among non-first expansions.  With depthLimit 0 the
update guard `next.pathCost >= depthLimit` (src/astar.h line 148) is always
true, so `best` is simply the most recent pop. -/
theorem c1_counterexample :
    solveA sigEx 10 (initA sigEx 0 0)
        = some (Except.ok (⟨3, 2, 9, some 1⟩ : SearchNode (Fin 4) (Fin 4)))
    ∧ (⟨1, 1, 0, some 1⟩ : SearchNode (Fin 4) (Fin 4))
        ∈ (solveTraceA sigEx 10 (initA sigEx 0 0)).drop 1
    ∧ (∀ m ∈ solveTraceA sigEx 10 (initA sigEx 0 0), sigEx.isWin m.state = false)
    ∧ SearchNode.fCost (⟨1, 1, 0, some 1⟩ : SearchNode (Fin 4) (Fin 4))
        < SearchNode.fCost (⟨3, 2, 9, some 1⟩ : SearchNode (Fin 4) (Fin 4)) := by
  decide

/-- C1 amended: with the depth limit disabled, `solve` returns the very last
node its loop popped — it stops and returns immediately on a popped win (no pop
before the last is a win), returns the root itself when the root has no
successors (the trace is then just the root), and, when the frontier empties
without a win, returns the most recent non-first expansion rather than the one
of lowest fCost. -/
theorem c1_amended_solve_returns_last_pop (σ : SSpace T M) (fuel : Nat)
    (e : EngineA T M) (n : SearchNode T M) (hdl : e.depthLimit = 0)
    (h : solveA σ fuel e = some (Except.ok n)) :
    (solveTraceA σ fuel e).getLast? = some n
    ∧ ∀ m ∈ (solveTraceA σ fuel e).dropLast, σ.isWin m.state = false :=
  solveLoopA_last σ fuel e none true n hdl h

/-- C1 witness: on the example space, `solve` returns the last popped node
⟨3, 2, 9⟩ and no earlier pop is a win. -/
theorem c1_witness :
    (solveTraceA sigEx 10 (initA sigEx 0 0)).getLast?
        = some (⟨3, 2, 9, some 1⟩ : SearchNode (Fin 4) (Fin 4))
    ∧ ∀ m ∈ (solveTraceA sigEx 10 (initA sigEx 0 0)).dropLast,
        sigEx.isWin m.state = false :=
  c1_amended_solve_returns_last_pop sigEx 10 (initA sigEx 0 0)
    ⟨3, 2, 9, some 1⟩ rfl (by decide)

/-- C5 counterexample: `getBestMove` on a freshly constructed engine whose
root has no legal moves fails with NoLegalMoves, but the Frontier does not
remain in its pre-call state: the single node was popped before the check
(src/unnamed/part_000 lines 186-190), leaving the Frontier empty.  (The
empty-frontier precondition also fails with EmptyFrontier, not InvalidState.) -/
theorem c5_counterexample :
    getBestMove sigNone 1 (initB sigNone 0)
        = some (Except.error SearchErr.noLegalMoves, ⟨[], [0]⟩)
    ∧ (initB sigNone 0).queue ≠ [] := by
  decide

/-- C5 amended: `getBestMove` fails with EmptyFrontier when the Frontier is
empty, with InvalidState when it holds more than one node, and with
NoLegalMoves when its single node's state has no successors.  The VisitedSet
is untouched in all three failures and the Frontier is untouched in the first
two, but in the NoLegalMoves case the single node has already been popped,
leaving the Frontier empty. -/
theorem c5_amended_preconditions (σ : SSpace T M) (fuel : Nat) (e : EngineB T) :
    (e.queue = [] →
      getBestMove σ fuel e = some (Except.error SearchErr.emptyFrontier, e))
    ∧ (2 ≤ e.queue.length →
      getBestMove σ fuel e = some (Except.error SearchErr.invalidState, e))
    ∧ (∀ nd, e.queue = [nd] → σ.successors nd.state = [] →
      getBestMove σ fuel e
        = some (Except.error SearchErr.noLegalMoves, ⟨[], e.history⟩)) := by
  refine ⟨?_, ?_, ?_⟩
  · intro h
    simp [getBestMove, h]
  · intro h
    obtain ⟨a, b, l, hq⟩ : ∃ a b l, e.queue = a :: b :: l := by
      cases hq : e.queue with
      | nil => rw [hq] at h; cases h
      | cons a tl =>
        cases htl : tl with
        | nil => rw [hq, htl] at h; simp at h
        | cons b l => exact ⟨a, b, l, rfl⟩
    simp [getBestMove, hq]
  · intro nd hq hsucc
    simp [getBestMove, hq, hsucc, popMin]

/-- C5 witness: the three failure shapes on concrete engines. -/
theorem c5_witness :
    getBestMove sigNone 1 (⟨[], [0]⟩ : EngineB (Fin 1))
        = some (Except.error SearchErr.emptyFrontier, ⟨[], [0]⟩)
    ∧ getBestMove sigWin 1 (⟨[⟨0, 0, 0⟩, ⟨1, 1, 0⟩], [0]⟩ : EngineB (Fin 4))
        = some (Except.error SearchErr.invalidState, ⟨[⟨0, 0, 0⟩, ⟨1, 1, 0⟩], [0]⟩)
    ∧ getBestMove sigNone 1 (initB sigNone 0)
        = some (Except.error SearchErr.noLegalMoves, ⟨[], [0]⟩) :=
  ⟨(c5_amended_preconditions sigNone 1 ⟨[], [0]⟩).1 rfl,
   (c5_amended_preconditions sigWin 1 ⟨[⟨0, 0, 0⟩, ⟨1, 1, 0⟩], [0]⟩).2.1 (by decide),
   (c5_amended_preconditions sigNone 1 (initB sigNone 0)).2.2 ⟨0, 0, 0⟩
      (by decide) (by decide)⟩

/-- C6: branch isolation in `getBestMove`.  First, after any branch completes
its sub-search — whatever frontier and visited set that sub-search built — the
remaining branches are processed from the engine state (empty Frontier,
VisitedSet holding exactly the root state): the reset at src/unnamed/part_000
lines 208-210.  Second, as a consequence, the whole branch loop started from
the reset state equals the fold of branch outcomes each computed in isolation
from that same reset state, so no visited-state knowledge leaks between
branches. -/
theorem c6_branch_isolation (σ : SSpace T M) (fuel : Nat) (current : NodeB T) :
    (∀ (s : T) (rest : List T) (e : EngineB T) (best : Option (M × NodeB T))
        (result : NodeB T) (e2 : EngineB T),
      subSearch σ fuel
          ⟨e.queue ++ [⟨s, current.pathCost + 1, σ.heuristic s⟩], insert s e.history⟩
        = some (Except.ok (result, e2)) →
      branchLoop σ fuel current (s :: rest) e best
        = branchLoop σ fuel current rest (⟨[], [current.state]⟩ : EngineB T)
            (updateBestB σ s result best))
    ∧ (∀ (ss : List T) (best : Option (M × NodeB T)),
        (branchLoop σ fuel current ss ⟨[], [current.state]⟩ best).map Prod.fst
          = foldOutcomes σ fuel current ss best) := by
  constructor
  · intro s rest e best result e2 hsub
    rw [branchLoop, hsub]
  · exact branchLoop_isolated σ fuel current

/-- C6 witness: in the best-move scenario, after the first branch (through
state 1) resolves, the second branch starts from the reset state. -/
theorem c6_witness :
    branchLoop sigWin 5 (rootNodeB sigWin 0) [1, 2] ⟨[], [0]⟩ none
      = branchLoop sigWin 5 (rootNodeB sigWin 0) [2] (⟨[], [0]⟩ : EngineB (Fin 4))
          (updateBestB sigWin 1 ⟨3, 2, 0⟩ none) :=
  (c6_branch_isolation sigWin 5 (rootNodeB sigWin 0)).1 1 [2] ⟨[], [0]⟩ none
    ⟨3, 2, 0⟩ ⟨[], [3, 1, 0]⟩ (by decide)

/-- C2: on a freshly constructed engine whose root has legal moves, when every
candidate branch's sub-search completes, `getBestMove` returns exactly the
first pair of minimal resulting fCost among the per-branch (move of the
candidate successor, terminal node of the sub-search) pairs: a later branch
replaces the recorded best only when strictly lower, so ties keep the
earlier-found branch. -/
theorem c2_getBestMove_first_wins_argmin (σ : SSpace T M) (fuel : Nat) (root : T)
    (rs : List (NodeB T × EngineB T))
    (hne : σ.successors root ≠ [])
    (hok : (σ.successors root).map (branchOutcome σ fuel (rootNodeB σ root))
      = rs.map (fun r => some (Except.ok r))) :
    ∃ c eFinal,
      getBestMove σ fuel (initB σ root) = some (Except.ok c, eFinal)
      ∧ (List.zip ((σ.successors root).map σ.getLastMove) (rs.map Prod.fst)).find?
          (isMinIn (List.zip ((σ.successors root).map σ.getLastMove) (rs.map Prod.fst)))
        = some c := by
  obtain ⟨s, rest, hsucc⟩ : ∃ s rest, σ.successors root = s :: rest := by
    cases hcase : σ.successors root with
    | nil => exact absurd hcase hne
    | cons s rest => exact ⟨s, rest, rfl⟩
  rw [hsucc] at hok
  cases rs with
  | nil => simp at hok
  | cons r rs' =>
    obtain ⟨rn, re⟩ := r
    simp only [List.map_cons, List.cons.injEq] at hok
    obtain ⟨hhead, htail⟩ := hok
    refine ⟨selectBest (σ.getLastMove s, rn)
        (List.zip (rest.map σ.getLastMove) (rs'.map Prod.fst)), ⟨[], [root]⟩, ?_, ?_⟩
    · rw [getBestMove_init σ fuel root hne, hsucc]
      exact branchLoop_none σ fuel (rootNodeB σ root) s rest rn re rs' hhead htail
    · rw [hsucc]
      exact selectBest_eq_find
        (List.zip (rest.map σ.getLastMove) (rs'.map Prod.fst)) (σ.getLastMove s, rn)

/-- C2 witness: the spec's best-move scenario; branch 1 resolves to the win
node at fCost 2, branch 2 to the dead end at fCost 6, and `getBestMove`
returns branch 1's move with its terminal node. -/
theorem c2_witness :
    ∃ c eFinal,
      getBestMove sigWin 5 (initB sigWin 0) = some (Except.ok c, eFinal)
      ∧ (List.zip ((sigWin.successors 0).map sigWin.getLastMove)
            ([((⟨3, 2, 0⟩ : NodeB (Fin 4)), (⟨[], [3, 1, 0]⟩ : EngineB (Fin 4))),
              (⟨2, 1, 5⟩, ⟨[], [2, 0]⟩)].map Prod.fst)).find?
          (isMinIn (List.zip ((sigWin.successors 0).map sigWin.getLastMove)
            ([((⟨3, 2, 0⟩ : NodeB (Fin 4)), (⟨[], [3, 1, 0]⟩ : EngineB (Fin 4))),
              (⟨2, 1, 5⟩, ⟨[], [2, 0]⟩)].map Prod.fst)))
        = some c :=
  c2_getBestMove_first_wins_argmin sigWin 5 0
    [(⟨3, 2, 0⟩, ⟨[], [3, 1, 0]⟩), (⟨2, 1, 5⟩, ⟨[], [2, 0]⟩)]
    (by decide) (by decide)

end Klondike
